import Mathlib

/-!
CRC8 engine (crc8.h, crc8.c, test.c).

Shallow embedding of the CRC8 engine.  The C struct `CRC8_t` holds four
`uint8_t` fields; they are modelled as natural numbers, and every store of a
value computed in `int` (after the integer promotions) is truncated with
`% 256`, as the conversion back to `uint8_t` does.  Functions that take a
`CRC8_t *` are modelled by explicit state passing: they take the struct and
return the struct they leave behind (together with the returned value, if any).

The code is embedded by computable definitions.  The three definitions
`toPoly`, `genPoly` and `msgPoly` are not code: they read 8-bit values and byte
sequences as polynomials over GF(2) (Mathlib's `Polynomial (ZMod 2)`), to state
that the accumulator is a remainder modulo the generator polynomial.
-/

namespace CRC8

/-- The struct `CRC8_t` of crc8.h. -/
structure CRC8_t where
  crc : Nat
  polynomial : Nat
  crcInitialVal : Nat
  crcFinalExorVal : Nat
  deriving DecidableEq, Repr

/-- Every field of the struct is a `uint8_t`. -/
def CRC8_t.WF (e : CRC8_t) : Prop :=
  e.crc < 256 ∧ e.polynomial < 256 ∧ e.crcInitialVal < 256 ∧ e.crcFinalExorVal < 256

instance (e : CRC8_t) : Decidable e.WF := by
  unfold CRC8_t.WF; infer_instance

def DEFAULT_CRC_INITVAL : Nat := 0xFF
def DEFAULT_FINAL_EXORVAL : Nat := 0x00
def DEFAULT_POLYNOMIAL : Nat := 0xB7

/-- `CRC8InitDefault` of crc8.c: the four assignments, in the order of the source. -/
def CRC8InitDefault (crc : CRC8_t) : CRC8_t :=
  let c1 := { crc with crcInitialVal := DEFAULT_CRC_INITVAL }
  let c2 := { c1 with crcFinalExorVal := DEFAULT_FINAL_EXORVAL }
  let c3 := { c2 with polynomial := DEFAULT_POLYNOMIAL }
  { c3 with crc := c3.crcInitialVal }

/-- `CRC8InitCustom` of crc8.c.  The three parameters are `uint8_t` in C. -/
def CRC8InitCustom (crc : CRC8_t) (polynomial crcInitialVal crcFinalExorVal : Nat) : CRC8_t :=
  let c1 := { crc with polynomial := polynomial }
  let c2 := { c1 with crcInitialVal := crcInitialVal }
  let c3 := { c2 with crcFinalExorVal := crcFinalExorVal }
  { c3 with crc := c3.crcInitialVal }

/-- One pass through the body of the `for` loop of `CRC8PushByte`. -/
def CRC8PushByte.body (crc : CRC8_t) : CRC8_t :=
  if crc.crc &&& 0x80 ≠ 0 then
    { crc with crc := ((crc.crc <<< 1) ^^^ crc.polynomial) % 256 }
  else
    { crc with crc := (crc.crc <<< 1) % 256 }

/-- The loop `for(uint8_t i = 0; i < 8; i++)` of `CRC8PushByte`, by the number
of iterations that remain. -/
def CRC8PushByte.loop : Nat → CRC8_t → CRC8_t
  | 0, crc => crc
  | n + 1, crc => CRC8PushByte.loop n (CRC8PushByte.body crc)

/-- `CRC8PushByte` of crc8.c: the returned value and the struct left behind. -/
def CRC8PushByte (crc : CRC8_t) (currentByte : Nat) : Nat × CRC8_t :=
  let c1 := { crc with crc := (crc.crc ^^^ currentByte) % 256 }
  let c2 := CRC8PushByte.loop 8 c1
  ((c2.crc ^^^ c2.crcFinalExorVal) % 256, c2)

/-- `CRC8Reset` of crc8.c. -/
def CRC8Reset (crc : CRC8_t) : CRC8_t :=
  { crc with crc := crc.crcInitialVal }

/-- `CRC8Get` of crc8.c: the returned value and the struct, which is not written. -/
def CRC8Get (crc : CRC8_t) : Nat × CRC8_t :=
  ((crc.crc ^^^ crc.crcFinalExorVal) % 256, crc)

/-- The loop `for(uint32_t i = 0; i < size; i++)` of `CRC8Batch`, at index `i`
with `n = size - i` iterations remaining.  Reading `data[i]` outside the
buffer is undefined in C and gives `none`. -/
def CRC8Batch.loop (data : List Nat) : Nat → Nat → CRC8_t → Option CRC8_t
  | _, 0, crc => some crc
  | i, n + 1, crc =>
    match data.get? i with
    | none => none
    | some b => CRC8Batch.loop data (i + 1) n (CRC8PushByte crc b).2

/-- `CRC8Batch` of crc8.c: the returned value and the struct left behind, or
`none` when the loop reads outside `data`. -/
def CRC8Batch (crc : CRC8_t) (data : List Nat) (size : Nat) : Option (Nat × CRC8_t) :=
  match CRC8Batch.loop data 0 size crc with
  | none => none
  | some c => some ((c.crc ^^^ c.crcFinalExorVal) % 256, c)

/-- A caller's loop `for(i = 0; i < N; i++) CRC8PushByte(pCrc, data[i]);` as in
`main` of test.c: the struct after pushing the bytes of `data` in order. -/
def pushAll (crc : CRC8_t) : List Nat → CRC8_t
  | [] => crc
  | b :: bs => pushAll (CRC8PushByte crc b).2 bs

/-- The array `test_data` of test.c. -/
def test_data : List Nat :=
  [0x12, 0x63, 0xaa, 0xbb, 0xcc, 0xcd, 0x02, 0x0f, 0x00, 0x4d,
   0x12, 0x63, 0xaa, 0xbb, 0xcc, 0xcd, 0x02, 0x0f, 0x00, 0x4d]

/-- The array `test_data2` of test.c. -/
def test_data2 : List Nat :=
  [0x12, 0x63, 0xaa, 0xbb, 0xcc, 0xcd, 0x02, 0x0f, 0x00, 0x4d,
   0x12, 0x63, 0xaa, 0xbb, 0xcc, 0xcd, 0x02, 0x0f, 0x00, 0x4d,
   0xc2, 0x6a]

/-- One call of the public interface on an initialised engine. -/
inductive Op where
  | push (currentByte : Nat)
  | batch (data : List Nat) (size : Nat)
  | get
  | reset
  deriving DecidableEq, Repr

/-- The call reads only inside its buffer. -/
def Op.inBounds : Op → Prop
  | Op.batch data size => size ≤ data.length
  | _ => True

instance (op : Op) : Decidable op.inBounds := by
  cases op <;> unfold Op.inBounds <;> infer_instance

/-- Executes one call: the values it returns (none for the `void`
`CRC8Reset`) and the struct it leaves behind. -/
def Op.exec (crc : CRC8_t) : Op → Option (List Nat × CRC8_t)
  | Op.push b => some ([(CRC8PushByte crc b).1], (CRC8PushByte crc b).2)
  | Op.batch data size =>
    match CRC8Batch crc data size with
    | none => none
    | some r => some ([r.1], r.2)
  | Op.get => some ([(CRC8Get crc).1], (CRC8Get crc).2)
  | Op.reset => some ([], CRC8Reset crc)

/-- Executes a sequence of calls in order on one engine: the returned values
in order and the struct left behind. -/
def run (crc : CRC8_t) : List Op → Option (List Nat × CRC8_t)
  | [] => some ([], crc)
  | op :: ops =>
    match op.exec crc with
    | none => none
    | some (rs, c) =>
      match run c ops with
      | none => none
      | some (rs', c') => some (rs ++ rs', c')

/-- Two structs hold the same accumulator and the same polynomial. -/
def Agree (e1 e2 : CRC8_t) : Prop := e1.crc = e2.crc ∧ e1.polynomial = e2.polynomial

instance (e1 e2 : CRC8_t) : Decidable (Agree e1 e2) := by
  unfold Agree; infer_instance

/-- Specification side, not code: the polynomial over GF(2) read off an 8-bit
value `v`, whose coefficient of `x^i` is bit `i` of `v` (for `i < 8`). -/
noncomputable def toPoly (v : Nat) : Polynomial (ZMod 2) :=
  ∑ i ∈ Finset.range 8, if v.testBit i then Polynomial.X ^ i else 0

/-- Specification side, not code: the generator `G(x) = x^8 + polynomial(x)`,
with the top bit implicit. -/
noncomputable def genPoly (polynomial : Nat) : Polynomial (ZMod 2) :=
  Polynomial.X ^ 8 + toPoly polynomial

/-- Specification side, not code: the message polynomial
`M(x) = B1(x) * x^(8(n-1)) + ... + Bn(x)` of the byte sequence `B1..Bn`. -/
noncomputable def msgPoly : List Nat → Polynomial (ZMod 2)
  | [] => 0
  | b :: bs => toPoly b * Polynomial.X ^ (8 * bs.length) + msgPoly bs

/-! Frame lemmas: the configuration fields are never written -/

theorem body_polynomial (e : CRC8_t) : (CRC8PushByte.body e).polynomial = e.polynomial := by
  unfold CRC8PushByte.body; split <;> rfl

theorem body_initial (e : CRC8_t) : (CRC8PushByte.body e).crcInitialVal = e.crcInitialVal := by
  unfold CRC8PushByte.body; split <;> rfl

theorem body_final (e : CRC8_t) : (CRC8PushByte.body e).crcFinalExorVal = e.crcFinalExorVal := by
  unfold CRC8PushByte.body; split <;> rfl

theorem body_crc_lt (e : CRC8_t) : (CRC8PushByte.body e).crc < 256 := by
  unfold CRC8PushByte.body; split <;> exact Nat.mod_lt _ (by decide)

theorem loop_polynomial (n : Nat) (e : CRC8_t) :
    (CRC8PushByte.loop n e).polynomial = e.polynomial := by
  induction n generalizing e with
  | zero => rfl
  | succ n ih => rw [CRC8PushByte.loop, ih, body_polynomial]

theorem loop_initial (n : Nat) (e : CRC8_t) :
    (CRC8PushByte.loop n e).crcInitialVal = e.crcInitialVal := by
  induction n generalizing e with
  | zero => rfl
  | succ n ih => rw [CRC8PushByte.loop, ih, body_initial]

theorem loop_final (n : Nat) (e : CRC8_t) :
    (CRC8PushByte.loop n e).crcFinalExorVal = e.crcFinalExorVal := by
  induction n generalizing e with
  | zero => rfl
  | succ n ih => rw [CRC8PushByte.loop, ih, body_final]

theorem loop_crc_lt (n : Nat) (e : CRC8_t) (h : e.crc < 256) :
    (CRC8PushByte.loop n e).crc < 256 := by
  induction n generalizing e with
  | zero => exact h
  | succ n ih => rw [CRC8PushByte.loop]; exact ih _ (body_crc_lt e)

theorem push_polynomial (e : CRC8_t) (b : Nat) :
    (CRC8PushByte e b).2.polynomial = e.polynomial := by
  simp [CRC8PushByte, loop_polynomial]

theorem push_initial (e : CRC8_t) (b : Nat) :
    (CRC8PushByte e b).2.crcInitialVal = e.crcInitialVal := by
  simp [CRC8PushByte, loop_initial]

theorem push_final (e : CRC8_t) (b : Nat) :
    (CRC8PushByte e b).2.crcFinalExorVal = e.crcFinalExorVal := by
  simp [CRC8PushByte, loop_final]

theorem push_crc_lt (e : CRC8_t) (b : Nat) : (CRC8PushByte e b).2.crc < 256 := by
  simp only [CRC8PushByte]
  exact loop_crc_lt 8 _ (Nat.mod_lt _ (by decide))

theorem push_fst (e : CRC8_t) (b : Nat) :
    (CRC8PushByte e b).1 = (CRC8Get (CRC8PushByte e b).2).1 := rfl

theorem xor_lt_256 {a b : Nat} (ha : a < 256) (hb : b < 256) : a ^^^ b < 256 :=
  Nat.xor_lt_two_pow (n := 8) ha hb

theorem xor_mod_256 {a b : Nat} (ha : a < 256) (hb : b < 256) : (a ^^^ b) % 256 = a ^^^ b :=
  Nat.mod_eq_of_lt (xor_lt_256 ha hb)

theorem get_fst (e : CRC8_t) (h : e.WF) : (CRC8Get e).1 = e.crc ^^^ e.crcFinalExorVal :=
  xor_mod_256 h.1 h.2.2.2

theorem push_WF (e : CRC8_t) (b : Nat) (h : e.WF) : (CRC8PushByte e b).2.WF :=
  ⟨push_crc_lt e b, by rw [push_polynomial]; exact h.2.1,
    by rw [push_initial]; exact h.2.2.1, by rw [push_final]; exact h.2.2.2⟩

theorem pushAll_polynomial (e : CRC8_t) (S : List Nat) :
    (pushAll e S).polynomial = e.polynomial := by
  induction S generalizing e with
  | nil => rfl
  | cons b bs ih => rw [pushAll, ih, push_polynomial]

theorem pushAll_initial (e : CRC8_t) (S : List Nat) :
    (pushAll e S).crcInitialVal = e.crcInitialVal := by
  induction S generalizing e with
  | nil => rfl
  | cons b bs ih => rw [pushAll, ih, push_initial]

theorem pushAll_final (e : CRC8_t) (S : List Nat) :
    (pushAll e S).crcFinalExorVal = e.crcFinalExorVal := by
  induction S generalizing e with
  | nil => rfl
  | cons b bs ih => rw [pushAll, ih, push_final]

theorem pushAll_WF (e : CRC8_t) (S : List Nat) (h : e.WF) : (pushAll e S).WF := by
  induction S generalizing e with
  | nil => exact h
  | cons b bs ih => rw [pushAll]; exact ih _ (push_WF e b h)

theorem pushAll_append (e : CRC8_t) (S T : List Nat) :
    pushAll e (S ++ T) = pushAll (pushAll e S) T := by
  induction S generalizing e with
  | nil => rfl
  | cons b bs ih => exact ih (CRC8PushByte e b).2

/-! The batch loop against the caller's push loop -/

/-- From index `i`, with the `n` remaining reads inside the buffer, the batch
loop pushes `data[i], ..., data[i+n-1]` in order. -/
theorem batch_loop_eq (data : List Nat) (n i : Nat) (e : CRC8_t) (h : i + n ≤ data.length) :
    CRC8Batch.loop data i n e = some (pushAll e ((data.drop i).take n)) := by
  induction n generalizing i e with
  | zero => simp [CRC8Batch.loop, pushAll]
  | succ n ih =>
    have hi : i < data.length := by omega
    rw [CRC8Batch.loop, List.get?_eq_get hi]
    simp only
    rw [ih (i + 1) _ (by omega)]
    rw [List.drop_eq_getElem_cons hi, List.take_succ_cons, pushAll]
    rfl

theorem batch_eq (e : CRC8_t) (data : List Nat) (size : Nat) (h : size ≤ data.length) :
    CRC8Batch e data size = some (CRC8Get (pushAll e (data.take size))) := by
  unfold CRC8Batch
  rw [batch_loop_eq data size 0 e (by omega)]
  simp [CRC8Get]

theorem batch_full (e : CRC8_t) (S : List Nat) :
    CRC8Batch e S S.length = some (CRC8Get (pushAll e S)) := by
  rw [batch_eq e S S.length (Nat.le_refl _), List.take_length]

/-! The accumulator does not depend on the final XOR value -/

theorem body_agree {e1 e2 : CRC8_t} (h : Agree e1 e2) :
    Agree (CRC8PushByte.body e1) (CRC8PushByte.body e2) := by
  obtain ⟨c1, p1, i1, f1⟩ := e1
  obtain ⟨c2, p2, i2, f2⟩ := e2
  obtain ⟨hc, hp⟩ := h
  simp only at hc hp
  subst hc hp
  unfold CRC8PushByte.body
  simp only
  split <;> exact ⟨rfl, rfl⟩

theorem loop_agree (n : Nat) {e1 e2 : CRC8_t} (h : Agree e1 e2) :
    Agree (CRC8PushByte.loop n e1) (CRC8PushByte.loop n e2) := by
  induction n generalizing e1 e2 with
  | zero => exact h
  | succ n ih => rw [CRC8PushByte.loop, CRC8PushByte.loop]; exact ih (body_agree h)

theorem push_agree {e1 e2 : CRC8_t} (h : Agree e1 e2) (b : Nat) :
    Agree (CRC8PushByte e1 b).2 (CRC8PushByte e2 b).2 := by
  simp only [CRC8PushByte]
  apply loop_agree
  exact ⟨by simp only [h.1], h.2⟩

theorem pushAll_agree {e1 e2 : CRC8_t} (h : Agree e1 e2) (S : List Nat) :
    Agree (pushAll e1 S) (pushAll e2 S) := by
  induction S generalizing e1 e2 with
  | nil => exact h
  | cons b bs ih => rw [pushAll, pushAll]; exact ih (push_agree h b)

theorem xor_xor_cancel (c a b : Nat) : (c ^^^ a) ^^^ (c ^^^ b) = a ^^^ b := by
  rw [Nat.xor_comm c a, Nat.xor_assoc, ← Nat.xor_assoc c c b, Nat.xor_self, Nat.zero_xor]

theorem get_xor_get {e1 e2 : CRC8_t} (h1 : e1.WF) (h2 : e2.WF) (h : Agree e1 e2) :
    (CRC8Get e1).1 ^^^ (CRC8Get e2).1 = e1.crcFinalExorVal ^^^ e2.crcFinalExorVal := by
  rw [get_fst e1 h1, get_fst e2 h2, h.1, xor_xor_cancel]

/-- One call other than `CRC8Reset`, inside its buffer, on two engines that
agree on accumulator and polynomial: both calls return, the engines still
agree, and the returned values differ by the XOR of the two final XOR values. -/
theorem exec_agree {e1 e2 : CRC8_t} (h1 : e1.WF) (h2 : e2.WF) (h : Agree e1 e2)
    (op : Op) (hb : op.inBounds) (hr : op ≠ Op.reset) :
    ∃ r1 s1 r2 s2, op.exec e1 = some (r1, s1) ∧ op.exec e2 = some (r2, s2)
      ∧ s1.WF ∧ s2.WF ∧ Agree s1 s2
      ∧ s1.crcFinalExorVal = e1.crcFinalExorVal ∧ s2.crcFinalExorVal = e2.crcFinalExorVal
      ∧ List.Forall₂ (fun a b => a ^^^ b = e1.crcFinalExorVal ^^^ e2.crcFinalExorVal)
          r1 r2 := by
  cases op with
  | push b =>
    refine ⟨_, _, _, _, rfl, rfl, push_WF e1 b h1, push_WF e2 b h2, push_agree h b,
      push_final e1 b, push_final e2 b, ?_⟩
    refine List.Forall₂.cons ?_ List.Forall₂.nil
    rw [push_fst, push_fst,
      get_xor_get (push_WF e1 b h1) (push_WF e2 b h2) (push_agree h b),
      push_final, push_final]
  | batch data size =>
    have hb' : size ≤ data.length := hb
    have w1 := pushAll_WF e1 (data.take size) h1
    have w2 := pushAll_WF e2 (data.take size) h2
    have ha := pushAll_agree h (data.take size)
    refine ⟨[(CRC8Get (pushAll e1 (data.take size))).1], pushAll e1 (data.take size),
      [(CRC8Get (pushAll e2 (data.take size))).1], pushAll e2 (data.take size),
      ?_, ?_, w1, w2, ha, pushAll_final _ _, pushAll_final _ _, ?_⟩
    · simp only [Op.exec, batch_eq e1 data size hb']; rfl
    · simp only [Op.exec, batch_eq e2 data size hb']; rfl
    · refine List.Forall₂.cons ?_ List.Forall₂.nil
      rw [get_xor_get w1 w2 ha, pushAll_final, pushAll_final]
  | get =>
    refine ⟨_, _, _, _, rfl, rfl, h1, h2, h, rfl, rfl, ?_⟩
    exact List.Forall₂.cons (get_xor_get h1 h2 h) List.Forall₂.nil
  | reset => exact absurd rfl hr

theorem run_agree (ops : List Op) {e1 e2 : CRC8_t} (h1 : e1.WF) (h2 : e2.WF)
    (h : Agree e1 e2) (hops : ∀ op ∈ ops, op.inBounds ∧ op ≠ Op.reset) :
    ∃ r1 s1 r2 s2, run e1 ops = some (r1, s1) ∧ run e2 ops = some (r2, s2)
      ∧ s1.WF ∧ s2.WF ∧ Agree s1 s2
      ∧ s1.crcFinalExorVal = e1.crcFinalExorVal ∧ s2.crcFinalExorVal = e2.crcFinalExorVal
      ∧ List.Forall₂ (fun a b => a ^^^ b = e1.crcFinalExorVal ^^^ e2.crcFinalExorVal)
          r1 r2 := by
  induction ops generalizing e1 e2 with
  | nil => exact ⟨[], e1, [], e2, rfl, rfl, h1, h2, h, rfl, rfl, List.Forall₂.nil⟩
  | cons op ops ih =>
    have hop := hops op (List.mem_cons_self _ _)
    obtain ⟨r1, s1, r2, s2, x1, x2, w1, w2, ha, f1, f2, hr⟩ :=
      exec_agree h1 h2 h op hop.1 hop.2
    obtain ⟨r1', t1, r2', t2, y1, y2, v1, v2, hb, g1, g2, hr'⟩ :=
      ih w1 w2 ha (fun o ho => hops o (List.mem_cons_of_mem _ ho))
    refine ⟨r1 ++ r1', t1, r2 ++ r2', t2, ?_, ?_, v1, v2, hb, g1.trans f1, g2.trans f2, ?_⟩
    · simp only [run, x1, y1]
    · simp only [run, x2, y2]
    · rw [f1, f2] at hr'
      exact List.rel_append hr hr'

/-! Claims -/

/-- C1. Equivalence law: for every engine state `e` and every byte sequence
`S`, `CRC8Batch(e, S, |S|)` returns the value that `CRC8Get` returns after one
`CRC8PushByte` per byte of `S` in order from `e`, and leaves the engine in the
state the pushes (and the read) leave it in. -/
theorem C1_batch_eq_push_then_get (e : CRC8_t) (S : List Nat) :
    CRC8Batch e S S.length
      = some ((CRC8Get (pushAll e S)).1, (CRC8Get (pushAll e S)).2)
    ∧ (CRC8Get (pushAll e S)).2 = pushAll e S := by
  exact ⟨batch_full e S, rfl⟩

/-- C2. Default configuration vector: from `CRC8InitDefault` (whatever the
struct held before) the configuration is 0xB7 / 0xFF / 0x00, and the 20 bytes
of `test_data` give checksum 0x03, pushed one at a time and read with
`CRC8Get`, submitted to `CRC8Batch`, and submitted to `CRC8Batch` after the
`CRC8Reset` of test.c. -/
theorem C2_default_vector (e0 : CRC8_t) :
    CRC8InitDefault e0 = ⟨0xFF, 0xB7, 0xFF, 0x00⟩
    ∧ (CRC8Get (pushAll (CRC8InitDefault e0) test_data)).1 = 0x03
    ∧ (CRC8Batch (CRC8InitDefault e0) test_data 20).map Prod.fst = some 0x03
    ∧ (CRC8Batch (CRC8Reset (pushAll (CRC8InitDefault e0) test_data)) test_data 20).map Prod.fst
        = some 0x03 := by
  have h : CRC8InitDefault e0 = ⟨0xFF, 0xB7, 0xFF, 0x00⟩ := rfl
  rw [h]
  refine ⟨rfl, ?_, ?_, ?_⟩ <;> decide!

/-- C3. Extended vector: with the default configuration and the accumulator at
its initial value (after `CRC8InitDefault`, or after `CRC8Reset` of the engine
that processed `test_data`, as in test.c), pushing the 22 bytes of
`test_data2` and calling `CRC8Get` yields 0x90. -/
theorem C3_extended_vector (e0 : CRC8_t) :
    test_data2 = test_data ++ [0xc2, 0x6a]
    ∧ (CRC8Get (pushAll (CRC8InitDefault e0) test_data2)).1 = 0x90
    ∧ (CRC8Get (pushAll (CRC8Reset (pushAll (CRC8InitDefault e0) test_data)) test_data2)).1
        = 0x90 := by
  have h : CRC8InitDefault e0 = ⟨0xFF, 0xB7, 0xFF, 0x00⟩ := rfl
  rw [h]
  refine ⟨rfl, ?_, ?_⟩ <;> decide!

/-- C4. Custom configuration vector: after `CRC8InitCustom` with polynomial
0x07, initial value 0x00 and final XOR value 0xFF, pushing the 22 bytes of
`test_data2` and calling `CRC8Get` yields 0x49. -/
theorem C4_custom_vector (e0 : CRC8_t) :
    (CRC8Get (pushAll (CRC8InitCustom e0 0x07 0x00 0xFF) test_data2)).1 = 0x49 := by
  have h : CRC8InitCustom e0 0x07 0x00 0xFF = ⟨0x00, 0x07, 0x00, 0xFF⟩ := rfl
  rw [h]
  decide!

/-- C5. For every engine state, `CRC8Reset` sets the accumulator to the initial
value and leaves polynomial, initial value and final XOR value unchanged, and
`CRC8Get` called right after it returns initial value XOR final XOR value. -/
theorem C5_reset (e : CRC8_t) (h : e.WF) :
    (CRC8Reset e).crc = e.crcInitialVal
    ∧ (CRC8Reset e).polynomial = e.polynomial
    ∧ (CRC8Reset e).crcInitialVal = e.crcInitialVal
    ∧ (CRC8Reset e).crcFinalExorVal = e.crcFinalExorVal
    ∧ (CRC8Get (CRC8Reset e)).1 = e.crcInitialVal ^^^ e.crcFinalExorVal :=
  ⟨rfl, rfl, rfl, rfl, xor_mod_256 h.2.2.1 h.2.2.2⟩

theorem C5_reset_witness :
    (⟨0x3c, 0xB7, 0xFF, 0x55⟩ : CRC8_t).WF
    ∧ (CRC8Reset ⟨0x3c, 0xB7, 0xFF, 0x55⟩).crc = 0xFF
    ∧ (CRC8Reset ⟨0x3c, 0xB7, 0xFF, 0x55⟩).polynomial = 0xB7
    ∧ (CRC8Reset ⟨0x3c, 0xB7, 0xFF, 0x55⟩).crcInitialVal = 0xFF
    ∧ (CRC8Reset ⟨0x3c, 0xB7, 0xFF, 0x55⟩).crcFinalExorVal = 0x55
    ∧ (CRC8Get (CRC8Reset ⟨0x3c, 0xB7, 0xFF, 0x55⟩)).1 = 0xFF ^^^ 0x55 :=
  ⟨by decide, C5_reset ⟨0x3c, 0xB7, 0xFF, 0x55⟩ (by decide)⟩

/-- C6. Configuration reuse: for every engine state `e` (so also every state
reached by pushes and batches) and every byte sequence `S`, `CRC8Reset e` is
the engine that `CRC8InitCustom` constructs from the configuration of `e` (in
any struct `e0`), so processing `S` after the reset gives the same checksum
and the same final state as the fresh engine, by pushes and by batch. -/
theorem C6_reset_eq_fresh (e e0 : CRC8_t) (S : List Nat) :
    CRC8Reset e = CRC8InitCustom e0 e.polynomial e.crcInitialVal e.crcFinalExorVal
    ∧ CRC8Get (pushAll (CRC8Reset e) S)
        = CRC8Get (pushAll
            (CRC8InitCustom e0 e.polynomial e.crcInitialVal e.crcFinalExorVal) S)
    ∧ CRC8Batch (CRC8Reset e) S S.length
        = CRC8Batch (CRC8InitCustom e0 e.polynomial e.crcInitialVal e.crcFinalExorVal)
            S S.length
    ∧ CRC8Batch (CRC8Reset e) S S.length
        = some (CRC8Get (pushAll
            (CRC8InitCustom e0 e.polynomial e.crcInitialVal e.crcFinalExorVal) S)) := by
  have h : CRC8Reset e
      = CRC8InitCustom e0 e.polynomial e.crcInitialVal e.crcFinalExorVal := rfl
  rw [← h]
  exact ⟨rfl, rfl, rfl, batch_full _ S⟩

/-- C7. For every engine state, `CRC8Get` returns accumulator XOR final XOR
value and leaves the struct as it was, so any number `n` of consecutive
`CRC8Get` calls return that same value `n` times and leave the struct as it
was. -/
theorem C7_get_readonly (e : CRC8_t) (n : Nat) (h : e.WF) :
    (CRC8Get e).1 = e.crc ^^^ e.crcFinalExorVal
    ∧ (CRC8Get e).2 = e
    ∧ run e (List.replicate n Op.get)
        = some (List.replicate n (e.crc ^^^ e.crcFinalExorVal), e) := by
  refine ⟨get_fst e h, rfl, ?_⟩
  induction n with
  | zero => rfl
  | succ n ih =>
    rw [List.replicate_succ, run]
    simp only [Op.exec]
    have h2 : (CRC8Get e).2 = e := rfl
    rw [h2, ih, get_fst e h]
    rfl

theorem C7_get_readonly_witness :
    (⟨0x3c, 0xB7, 0xFF, 0x55⟩ : CRC8_t).WF
    ∧ (CRC8Get ⟨0x3c, 0xB7, 0xFF, 0x55⟩).1 = 0x3c ^^^ 0x55
    ∧ (CRC8Get ⟨0x3c, 0xB7, 0xFF, 0x55⟩).2 = ⟨0x3c, 0xB7, 0xFF, 0x55⟩
    ∧ run ⟨0x3c, 0xB7, 0xFF, 0x55⟩ (List.replicate 3 Op.get)
        = some (List.replicate 3 (0x3c ^^^ 0x55), ⟨0x3c, 0xB7, 0xFF, 0x55⟩) :=
  ⟨by decide, C7_get_readonly ⟨0x3c, 0xB7, 0xFF, 0x55⟩ 3 (by decide)⟩

/-- C8. Zero-length batch: for every engine state and every data buffer,
`CRC8Batch` with size 0 leaves the struct unchanged and returns accumulator
XOR final XOR value, the value `CRC8Get` returns on that state. -/
theorem C8_batch_zero (e : CRC8_t) (data : List Nat) (h : e.WF) :
    CRC8Batch e data 0 = some (e.crc ^^^ e.crcFinalExorVal, e)
    ∧ CRC8Batch e data 0 = some ((CRC8Get e).1, e) := by
  have h0 : CRC8Batch e data 0 = some ((CRC8Get e).1, e) := rfl
  refine ⟨?_, h0⟩
  rw [h0, get_fst e h]

theorem C8_batch_zero_witness :
    (⟨0x3c, 0xB7, 0xFF, 0x55⟩ : CRC8_t).WF
    ∧ CRC8Batch ⟨0x3c, 0xB7, 0xFF, 0x55⟩ [0x12, 0x63] 0
        = some (0x3c ^^^ 0x55, ⟨0x3c, 0xB7, 0xFF, 0x55⟩)
    ∧ CRC8Batch ⟨0x3c, 0xB7, 0xFF, 0x55⟩ [0x12, 0x63] 0
        = some ((CRC8Get ⟨0x3c, 0xB7, 0xFF, 0x55⟩).1, ⟨0x3c, 0xB7, 0xFF, 0x55⟩) :=
  ⟨by decide, C8_batch_zero ⟨0x3c, 0xB7, 0xFF, 0x55⟩ [0x12, 0x63] (by decide)⟩

/-- C9. For every engine state reached from `e0` by pushing the bytes of `S`
and every byte `b`, the value `CRC8PushByte` returns is the updated
accumulator XOR the final XOR value; it is what `CRC8Get` returns on the state
the push leaves, and what `CRC8Batch` returns (leaving the same state) when
the bytes pushed so far, ending in `b`, are submitted to `e0` as one buffer. -/
theorem C9_push_returns_instant_crc (e0 : CRC8_t) (S : List Nat) (b : Nat)
    (h : e0.crcFinalExorVal < 256) :
    (CRC8PushByte (pushAll e0 S) b).1
        = (CRC8PushByte (pushAll e0 S) b).2.crc ^^^ e0.crcFinalExorVal
    ∧ (CRC8PushByte (pushAll e0 S) b).1 = (CRC8Get (CRC8PushByte (pushAll e0 S) b).2).1
    ∧ CRC8Batch e0 (S ++ [b]) (S ++ [b]).length
        = some ((CRC8PushByte (pushAll e0 S) b).1, (CRC8PushByte (pushAll e0 S) b).2) := by
  refine ⟨?_, rfl, ?_⟩
  · have hf : (CRC8PushByte (pushAll e0 S) b).2.crcFinalExorVal = e0.crcFinalExorVal := by
      rw [push_final, pushAll_final]
    rw [← hf]
    exact xor_mod_256 (push_crc_lt _ b) (hf ▸ h)
  · rw [batch_full, pushAll_append]
    rfl

theorem C9_push_returns_instant_crc_witness :
    (⟨0xFF, 0xB7, 0xFF, 0x55⟩ : CRC8_t).crcFinalExorVal < 256
    ∧ (CRC8PushByte (pushAll ⟨0xFF, 0xB7, 0xFF, 0x55⟩ [0x12, 0x63]) 0xaa).1
        = (CRC8PushByte (pushAll ⟨0xFF, 0xB7, 0xFF, 0x55⟩ [0x12, 0x63]) 0xaa).2.crc
            ^^^ (⟨0xFF, 0xB7, 0xFF, 0x55⟩ : CRC8_t).crcFinalExorVal
    ∧ (CRC8PushByte (pushAll ⟨0xFF, 0xB7, 0xFF, 0x55⟩ [0x12, 0x63]) 0xaa).1
        = (CRC8Get (CRC8PushByte (pushAll ⟨0xFF, 0xB7, 0xFF, 0x55⟩ [0x12, 0x63]) 0xaa).2).1
    ∧ CRC8Batch ⟨0xFF, 0xB7, 0xFF, 0x55⟩ ([0x12, 0x63] ++ [0xaa]) ([0x12, 0x63] ++ [0xaa]).length
        = some ((CRC8PushByte (pushAll ⟨0xFF, 0xB7, 0xFF, 0x55⟩ [0x12, 0x63]) 0xaa).1,
            (CRC8PushByte (pushAll ⟨0xFF, 0xB7, 0xFF, 0x55⟩ [0x12, 0x63]) 0xaa).2) :=
  ⟨by decide, C9_push_returns_instant_crc ⟨0xFF, 0xB7, 0xFF, 0x55⟩ [0x12, 0x63] 0xaa (by decide)⟩

/-- C10. The final XOR value never influences the stored accumulator: two
engines with the same polynomial and the same accumulator (and any final XOR
values) that execute the same sequence of `CRC8PushByte`, `CRC8Batch` and
`CRC8Get` calls both complete it, end with the same accumulator, and return
the same number of values, which pairwise differ by exactly the XOR of the two
final XOR values. -/
theorem C10_final_xor_only_on_reads (e1 e2 : CRC8_t) (ops : List Op)
    (h1 : e1.WF) (h2 : e2.WF)
    (hp : e1.polynomial = e2.polynomial) (hc : e1.crc = e2.crc)
    (hops : ∀ op ∈ ops, op.inBounds ∧ op ≠ Op.reset) :
    ∃ r1 s1 r2 s2, run e1 ops = some (r1, s1) ∧ run e2 ops = some (r2, s2)
      ∧ s1.crc = s2.crc
      ∧ List.Forall₂ (fun a b => a ^^^ b = e1.crcFinalExorVal ^^^ e2.crcFinalExorVal)
          r1 r2 := by
  obtain ⟨r1, s1, r2, s2, x1, x2, -, -, ha, -, -, hr⟩ := run_agree ops h1 h2 ⟨hc, hp⟩ hops
  exact ⟨r1, s1, r2, s2, x1, x2, ha.1, hr⟩

theorem C10_final_xor_only_on_reads_witness :
    (⟨0xFF, 0xB7, 0xFF, 0x00⟩ : CRC8_t).WF
    ∧ (⟨0xFF, 0xB7, 0x00, 0x55⟩ : CRC8_t).WF
    ∧ (∀ op ∈ [Op.push 0x12, Op.get, Op.batch [0x63, 0xaa, 0xbb] 2, Op.get],
        op.inBounds ∧ op ≠ Op.reset)
    ∧ ∃ r1 s1 r2 s2,
        run ⟨0xFF, 0xB7, 0xFF, 0x00⟩
            [Op.push 0x12, Op.get, Op.batch [0x63, 0xaa, 0xbb] 2, Op.get] = some (r1, s1)
        ∧ run ⟨0xFF, 0xB7, 0x00, 0x55⟩
            [Op.push 0x12, Op.get, Op.batch [0x63, 0xaa, 0xbb] 2, Op.get] = some (r2, s2)
        ∧ s1.crc = s2.crc
        ∧ List.Forall₂ (fun a b => a ^^^ b = 0x00 ^^^ 0x55) r1 r2 :=
  ⟨by decide, by decide, by decide,
    C10_final_xor_only_on_reads ⟨0xFF, 0xB7, 0xFF, 0x00⟩ ⟨0xFF, 0xB7, 0x00, 0x55⟩
      [Op.push 0x12, Op.get, Op.batch [0x63, 0xaa, 0xbb] 2, Op.get]
      (by decide) (by decide) rfl rfl (by decide)⟩

/-- One call inside its buffer returns and leaves the configuration fields as
they were. -/
theorem exec_config (e : CRC8_t) (op : Op) (hb : op.inBounds) :
    ∃ r s, op.exec e = some (r, s) ∧ s.polynomial = e.polynomial
      ∧ s.crcInitialVal = e.crcInitialVal ∧ s.crcFinalExorVal = e.crcFinalExorVal := by
  cases op with
  | push b => exact ⟨_, _, rfl, push_polynomial e b, push_initial e b, push_final e b⟩
  | batch data size =>
    have hb' : size ≤ data.length := hb
    refine ⟨[(CRC8Get (pushAll e (data.take size))).1], pushAll e (data.take size), ?_,
      pushAll_polynomial _ _, pushAll_initial _ _, pushAll_final _ _⟩
    simp only [Op.exec, batch_eq e data size hb']; rfl
  | get => exact ⟨_, _, rfl, rfl, rfl, rfl⟩
  | reset => exact ⟨_, _, rfl, rfl, rfl, rfl⟩

theorem run_config (ops : List Op) (e : CRC8_t) (hops : ∀ op ∈ ops, op.inBounds) :
    ∃ r s, run e ops = some (r, s) ∧ s.polynomial = e.polynomial
      ∧ s.crcInitialVal = e.crcInitialVal ∧ s.crcFinalExorVal = e.crcFinalExorVal := by
  induction ops generalizing e with
  | nil => exact ⟨[], e, rfl, rfl, rfl, rfl⟩
  | cons op ops ih =>
    obtain ⟨r, s, x, hp, hi, hf⟩ := exec_config e op (hops op (List.mem_cons_self _ _))
    obtain ⟨r', t, y, gp, gi, gf⟩ := ih s (fun o ho => hops o (List.mem_cons_of_mem _ ho))
    refine ⟨r ++ r', t, ?_, gp.trans hp, gi.trans hi, gf.trans hf⟩
    simp only [run, x, y]

/-- C11. `CRC8InitDefault`, applied to any prior struct contents, produces the
engine with polynomial 0xB7, initial value 0xFF, final XOR value 0x00 and
accumulator 0xFF, which is the engine `CRC8InitCustom(0xB7, 0xFF, 0x00)`
produces from any prior struct contents. -/
theorem C11_init_default (e0 e1 : CRC8_t) :
    (CRC8InitDefault e0).polynomial = 0xB7
    ∧ (CRC8InitDefault e0).crcInitialVal = 0xFF
    ∧ (CRC8InitDefault e0).crcFinalExorVal = 0x00
    ∧ (CRC8InitDefault e0).crc = 0xFF
    ∧ CRC8InitDefault e0 = CRC8InitCustom e1 0xB7 0xFF 0x00 :=
  ⟨rfl, rfl, rfl, rfl, rfl⟩

/-- C12. For every triple of 8-bit values (polynomial 0 included) and any prior
struct contents, `CRC8InitCustom` produces an engine whose configuration
fields are the supplied parameters and whose accumulator is the initial value;
the result is a well-formed engine, and nothing is rejected (the function is
total). -/
theorem C12_init_custom (e0 : CRC8_t) (polynomial crcInitialVal crcFinalExorVal : Nat)
    (hp : polynomial < 256) (hi : crcInitialVal < 256) (hf : crcFinalExorVal < 256) :
    CRC8InitCustom e0 polynomial crcInitialVal crcFinalExorVal
        = ⟨crcInitialVal, polynomial, crcInitialVal, crcFinalExorVal⟩
    ∧ (CRC8InitCustom e0 polynomial crcInitialVal crcFinalExorVal).polynomial = polynomial
    ∧ (CRC8InitCustom e0 polynomial crcInitialVal crcFinalExorVal).crcInitialVal
        = crcInitialVal
    ∧ (CRC8InitCustom e0 polynomial crcInitialVal crcFinalExorVal).crcFinalExorVal
        = crcFinalExorVal
    ∧ (CRC8InitCustom e0 polynomial crcInitialVal crcFinalExorVal).crc = crcInitialVal
    ∧ (CRC8InitCustom e0 polynomial crcInitialVal crcFinalExorVal).WF :=
  ⟨rfl, rfl, rfl, rfl, rfl, hi, hp, hi, hf⟩

theorem C12_init_custom_witness :
    0 < 256 ∧ 0x5a < 256 ∧ 0xFF < 256
    ∧ CRC8InitCustom ⟨1, 2, 3, 4⟩ 0 0x5a 0xFF = ⟨0x5a, 0, 0x5a, 0xFF⟩
    ∧ (CRC8InitCustom ⟨1, 2, 3, 4⟩ 0 0x5a 0xFF).polynomial = 0
    ∧ (CRC8InitCustom ⟨1, 2, 3, 4⟩ 0 0x5a 0xFF).crcInitialVal = 0x5a
    ∧ (CRC8InitCustom ⟨1, 2, 3, 4⟩ 0 0x5a 0xFF).crcFinalExorVal = 0xFF
    ∧ (CRC8InitCustom ⟨1, 2, 3, 4⟩ 0 0x5a 0xFF).crc = 0x5a
    ∧ (CRC8InitCustom ⟨1, 2, 3, 4⟩ 0 0x5a 0xFF).WF :=
  ⟨by decide, by decide, by decide,
    C12_init_custom ⟨1, 2, 3, 4⟩ 0 0x5a 0xFF (by decide) (by decide) (by decide)⟩

/-- C13. Configuration is immutable after initialisation: `CRC8PushByte` and
`CRC8Batch` (which returns, reading inside its buffer) leave polynomial,
initial value and final XOR value as they were, so every sequence of push,
batch, get and reset calls completes and leaves the three fields as they were
at its start. -/
theorem C13_config_immutable (e : CRC8_t) (b : Nat) (data : List Nat) (size : Nat)
    (ops : List Op) (hsize : size ≤ data.length) (hops : ∀ op ∈ ops, op.inBounds) :
    ((CRC8PushByte e b).2.polynomial = e.polynomial
      ∧ (CRC8PushByte e b).2.crcInitialVal = e.crcInitialVal
      ∧ (CRC8PushByte e b).2.crcFinalExorVal = e.crcFinalExorVal)
    ∧ (∃ r s, CRC8Batch e data size = some (r, s) ∧ s.polynomial = e.polynomial
        ∧ s.crcInitialVal = e.crcInitialVal ∧ s.crcFinalExorVal = e.crcFinalExorVal)
    ∧ (∃ rs s, run e ops = some (rs, s) ∧ s.polynomial = e.polynomial
        ∧ s.crcInitialVal = e.crcInitialVal ∧ s.crcFinalExorVal = e.crcFinalExorVal) := by
  refine ⟨⟨push_polynomial e b, push_initial e b, push_final e b⟩, ?_, run_config ops e hops⟩
  exact ⟨_, _, batch_eq e data size hsize, pushAll_polynomial _ _, pushAll_initial _ _,
    pushAll_final _ _⟩

theorem C13_config_immutable_witness :
    2 ≤ [0x63, 0xaa, 0xbb].length
    ∧ (∀ op ∈ [Op.push 0x12, Op.reset, Op.batch [0x63, 0xaa] 2, Op.get], op.inBounds)
    ∧ ((CRC8PushByte ⟨0x3c, 0xB7, 0xFF, 0x55⟩ 0x12).2.polynomial = 0xB7
      ∧ (CRC8PushByte ⟨0x3c, 0xB7, 0xFF, 0x55⟩ 0x12).2.crcInitialVal = 0xFF
      ∧ (CRC8PushByte ⟨0x3c, 0xB7, 0xFF, 0x55⟩ 0x12).2.crcFinalExorVal = 0x55)
    ∧ (∃ r s, CRC8Batch ⟨0x3c, 0xB7, 0xFF, 0x55⟩ [0x63, 0xaa, 0xbb] 2 = some (r, s)
        ∧ s.polynomial = 0xB7 ∧ s.crcInitialVal = 0xFF ∧ s.crcFinalExorVal = 0x55)
    ∧ (∃ rs s, run ⟨0x3c, 0xB7, 0xFF, 0x55⟩
          [Op.push 0x12, Op.reset, Op.batch [0x63, 0xaa] 2, Op.get] = some (rs, s)
        ∧ s.polynomial = 0xB7 ∧ s.crcInitialVal = 0xFF ∧ s.crcFinalExorVal = 0x55) :=
  ⟨by decide, by decide,
    C13_config_immutable ⟨0x3c, 0xB7, 0xFF, 0x55⟩ 0x12 [0x63, 0xaa, 0xbb] 2
      [Op.push 0x12, Op.reset, Op.batch [0x63, 0xaa] 2, Op.get] (by decide) (by decide)⟩

/-- C15. Chaining without reset: for every engine state `e` and byte sequences
`S1`, `S2`, `CRC8Batch` on `S1` returns and leaves the state that pushing `S1`
leaves (accumulator not reset to the initial value); `CRC8Batch` on `S2` from
that state returns the same checksum and leaves the same state as one
`CRC8Batch` on `S1 ++ S2` from `e`. -/
theorem C15_batch_chaining (e : CRC8_t) (S1 S2 : List Nat) :
    ∃ r1 s1, CRC8Batch e S1 S1.length = some (r1, s1)
      ∧ s1 = pushAll e S1
      ∧ CRC8Batch s1 S2 S2.length = CRC8Batch e (S1 ++ S2) (S1 ++ S2).length
      ∧ CRC8Batch s1 S2 S2.length = some (CRC8Get (pushAll s1 S2)) := by
  refine ⟨_, _, batch_full e S1, rfl, ?_, batch_full _ S2⟩
  show CRC8Batch (pushAll e S1) S2 S2.length = _
  rw [batch_full, batch_full, pushAll_append]

/-- C20. Standard-variant conformance: configured with the CRC-8/SMBUS
parameters (polynomial 0x07, initial value 0x00, final XOR value 0x00) by
`CRC8InitCustom`, `CRC8Batch` over the nine ASCII bytes of "123456789"
returns the catalogue check value 0xF4. -/
theorem C20_smbus_check (e0 : CRC8_t) :
    (CRC8Batch (CRC8InitCustom e0 0x07 0x00 0x00)
        [0x31, 0x32, 0x33, 0x34, 0x35, 0x36, 0x37, 0x38, 0x39] 9).map Prod.fst
      = some 0xF4 := by
  have h : CRC8InitCustom e0 0x07 0x00 0x00 = ⟨0x00, 0x07, 0x00, 0x00⟩ := rfl
  rw [h]
  decide!

/-! Polynomial 0 and accumulator 0 -/

theorem body_crc_of_polynomial_zero (e : CRC8_t) (hp : e.polynomial = 0) :
    (CRC8PushByte.body e).crc = (e.crc * 2) % 256 := by
  unfold CRC8PushByte.body
  split <;> simp [hp, Nat.shiftLeft_eq]

theorem loop_crc_of_polynomial_zero (n : Nat) (e : CRC8_t) (hp : e.polynomial = 0) :
    (CRC8PushByte.loop n e).crc % 256 = (e.crc * 2 ^ n) % 256 := by
  induction n generalizing e with
  | zero => simp [CRC8PushByte.loop]
  | succ n ih =>
    rw [CRC8PushByte.loop, ih _ ((body_polynomial e).trans hp),
      body_crc_of_polynomial_zero e hp, Nat.mod_mul_mod, Nat.pow_succ, Nat.mul_assoc,
      Nat.mul_comm 2 (2 ^ n)]

theorem push_crc_of_polynomial_zero (e : CRC8_t) (b : Nat) (hp : e.polynomial = 0) :
    (CRC8PushByte e b).2.crc = 0 := by
  have hl := loop_crc_of_polynomial_zero 8 { e with crc := (e.crc ^^^ b) % 256 } hp
  have hlt := push_crc_lt e b
  simp only [CRC8PushByte] at hlt ⊢
  rw [← Nat.mod_eq_of_lt hlt, hl]
  simp

theorem pushAll_crc_of_polynomial_zero (e : CRC8_t) (S : List Nat) (hp : e.polynomial = 0)
    (hS : S ≠ []) : (pushAll e S).crc = 0 := by
  induction S generalizing e with
  | nil => exact absurd rfl hS
  | cons b bs ih =>
    rw [pushAll]
    cases bs with
    | nil => exact push_crc_of_polynomial_zero e b hp
    | cons b' bs' => exact ih _ ((push_polynomial e b).trans hp) (List.cons_ne_nil _ _)

theorem body_crc_zero (e : CRC8_t) (hc : e.crc = 0) : (CRC8PushByte.body e).crc = 0 := by
  unfold CRC8PushByte.body
  simp [hc]

theorem loop_crc_zero (n : Nat) (e : CRC8_t) (hc : e.crc = 0) :
    (CRC8PushByte.loop n e).crc = 0 := by
  induction n generalizing e with
  | zero => exact hc
  | succ n ih => rw [CRC8PushByte.loop]; exact ih _ (body_crc_zero e hc)

/-- C16. Degenerate polynomial: when the polynomial is 0, for every start
accumulator and every byte the accumulator after `CRC8PushByte` is 0, so after
any non-empty byte sequence `CRC8Get` and `CRC8Batch` return the final XOR
value whatever the data. -/
theorem C16_polynomial_zero (e : CRC8_t) (b : Nat) (S : List Nat)
    (hp : e.polynomial = 0) (hf : e.crcFinalExorVal < 256) (hS : S ≠ []) :
    (CRC8PushByte e b).2.crc = 0
    ∧ (pushAll e S).crc = 0
    ∧ (CRC8Get (pushAll e S)).1 = e.crcFinalExorVal
    ∧ CRC8Batch e S S.length = some (e.crcFinalExorVal, pushAll e S) := by
  have h0 := pushAll_crc_of_polynomial_zero e S hp hS
  have hg : (CRC8Get (pushAll e S)).1 = e.crcFinalExorVal := by
    simp only [CRC8Get]
    rw [h0, pushAll_final, Nat.zero_xor, Nat.mod_eq_of_lt hf]
  refine ⟨push_crc_of_polynomial_zero e b hp, h0, hg, ?_⟩
  rw [batch_full, ← hg]
  rfl

theorem C16_polynomial_zero_witness :
    (⟨0x3c, 0, 0xFF, 0x55⟩ : CRC8_t).polynomial = 0
    ∧ (⟨0x3c, 0, 0xFF, 0x55⟩ : CRC8_t).crcFinalExorVal < 256
    ∧ [0x12, 0x63, 0xaa] ≠ []
    ∧ (CRC8PushByte ⟨0x3c, 0, 0xFF, 0x55⟩ 0xbb).2.crc = 0
    ∧ (pushAll ⟨0x3c, 0, 0xFF, 0x55⟩ [0x12, 0x63, 0xaa]).crc = 0
    ∧ (CRC8Get (pushAll ⟨0x3c, 0, 0xFF, 0x55⟩ [0x12, 0x63, 0xaa])).1
        = (⟨0x3c, 0, 0xFF, 0x55⟩ : CRC8_t).crcFinalExorVal
    ∧ CRC8Batch ⟨0x3c, 0, 0xFF, 0x55⟩ [0x12, 0x63, 0xaa] [0x12, 0x63, 0xaa].length
        = some ((⟨0x3c, 0, 0xFF, 0x55⟩ : CRC8_t).crcFinalExorVal,
            pushAll ⟨0x3c, 0, 0xFF, 0x55⟩ [0x12, 0x63, 0xaa]) :=
  ⟨rfl, by decide, by decide,
    C16_polynomial_zero ⟨0x3c, 0, 0xFF, 0x55⟩ 0xbb [0x12, 0x63, 0xaa] rfl (by decide)
      (by decide)⟩

/-- C17. Self-check residue: for every engine state (reached from `e0` by
pushing `S`), pushing the engine's own current checksum `CRC8Get(e)` leaves the
accumulator obtained by pushing the byte final XOR value onto accumulator 0
with the same polynomial, which depends on polynomial and final XOR value
only; when the final XOR value is 0 that accumulator is 0, and the message
followed by its checksum has checksum 0. -/
theorem C17_self_check_residue (e0 : CRC8_t) (S : List Nat) (h : e0.WF) :
    (CRC8PushByte (pushAll e0 S) (CRC8Get (pushAll e0 S)).1).2.crc
        = (CRC8PushByte ⟨0, e0.polynomial, 0, e0.crcFinalExorVal⟩ e0.crcFinalExorVal).2.crc
    ∧ (e0.crcFinalExorVal = 0 →
        (CRC8PushByte (pushAll e0 S) (CRC8Get (pushAll e0 S)).1).2.crc = 0
        ∧ (CRC8PushByte (pushAll e0 S) (CRC8Get (pushAll e0 S)).1).1 = 0
        ∧ (CRC8Batch e0 (S ++ [(CRC8Get (pushAll e0 S)).1])
              (S ++ [(CRC8Get (pushAll e0 S)).1]).length).map Prod.fst = some 0) := by
  have hw := pushAll_WF e0 S h
  have hfin : (pushAll e0 S).crcFinalExorVal = e0.crcFinalExorVal := pushAll_final e0 S
  have hpol : (pushAll e0 S).polynomial = e0.polynomial := pushAll_polynomial e0 S
  have hg : (CRC8Get (pushAll e0 S)).1 = (pushAll e0 S).crc ^^^ e0.crcFinalExorVal := by
    rw [get_fst _ hw, hfin]
  have hx : ((pushAll e0 S).crc ^^^ (CRC8Get (pushAll e0 S)).1) % 256
      = e0.crcFinalExorVal := by
    rw [hg, ← Nat.xor_assoc, Nat.xor_self, Nat.zero_xor, Nat.mod_eq_of_lt h.2.2.2]
  have hy : (0 ^^^ e0.crcFinalExorVal) % 256 = e0.crcFinalExorVal := by
    rw [Nat.zero_xor, Nat.mod_eq_of_lt h.2.2.2]
  have h1 : (CRC8PushByte (pushAll e0 S) (CRC8Get (pushAll e0 S)).1).2.crc
      = (CRC8PushByte ⟨0, e0.polynomial, 0, e0.crcFinalExorVal⟩ e0.crcFinalExorVal).2.crc := by
    have ha : Agree
        { pushAll e0 S with crc := ((pushAll e0 S).crc ^^^ (CRC8Get (pushAll e0 S)).1) % 256 }
        ⟨(0 ^^^ e0.crcFinalExorVal) % 256, e0.polynomial, 0, e0.crcFinalExorVal⟩ :=
      ⟨hx.trans hy.symm, hpol⟩
    exact (loop_agree 8 ha).1
  refine ⟨h1, fun hf0 => ?_⟩
  have h2 : (CRC8PushByte (pushAll e0 S) (CRC8Get (pushAll e0 S)).1).2.crc = 0 := by
    rw [h1]
    simp only [CRC8PushByte]
    refine loop_crc_zero 8 _ ?_
    show (0 ^^^ e0.crcFinalExorVal) % 256 = 0
    rw [hf0]
    rfl
  have h3 : (CRC8PushByte (pushAll e0 S) (CRC8Get (pushAll e0 S)).1).1 = 0 := by
    rw [push_fst, get_fst _ (push_WF _ _ hw), h2, push_final, hfin, hf0]
    rfl
  refine ⟨h2, h3, ?_⟩
  rw [batch_full, pushAll_append]
  simp only [pushAll, Option.map_some']
  exact congrArg some (push_fst _ _ ▸ h3)

theorem C17_self_check_residue_witness :
    (⟨0xFF, 0xB7, 0xFF, 0x00⟩ : CRC8_t).WF
    ∧ (CRC8PushByte (pushAll ⟨0xFF, 0xB7, 0xFF, 0x00⟩ test_data)
          (CRC8Get (pushAll ⟨0xFF, 0xB7, 0xFF, 0x00⟩ test_data)).1).2.crc
        = (CRC8PushByte ⟨0, (⟨0xFF, 0xB7, 0xFF, 0x00⟩ : CRC8_t).polynomial, 0,
            (⟨0xFF, 0xB7, 0xFF, 0x00⟩ : CRC8_t).crcFinalExorVal⟩
            (⟨0xFF, 0xB7, 0xFF, 0x00⟩ : CRC8_t).crcFinalExorVal).2.crc
    ∧ ((⟨0xFF, 0xB7, 0xFF, 0x00⟩ : CRC8_t).crcFinalExorVal = 0 →
        (CRC8PushByte (pushAll ⟨0xFF, 0xB7, 0xFF, 0x00⟩ test_data)
          (CRC8Get (pushAll ⟨0xFF, 0xB7, 0xFF, 0x00⟩ test_data)).1).2.crc = 0
        ∧ (CRC8PushByte (pushAll ⟨0xFF, 0xB7, 0xFF, 0x00⟩ test_data)
          (CRC8Get (pushAll ⟨0xFF, 0xB7, 0xFF, 0x00⟩ test_data)).1).1 = 0
        ∧ (CRC8Batch ⟨0xFF, 0xB7, 0xFF, 0x00⟩
              (test_data ++ [(CRC8Get (pushAll ⟨0xFF, 0xB7, 0xFF, 0x00⟩ test_data)).1])
              (test_data
                ++ [(CRC8Get (pushAll ⟨0xFF, 0xB7, 0xFF, 0x00⟩ test_data)).1]).length).map
            Prod.fst = some 0) :=
  ⟨by decide, C17_self_check_residue ⟨0xFF, 0xB7, 0xFF, 0x00⟩ test_data (by decide)⟩

/-! The accumulator as a polynomial over GF(2) -/

theorem poly_add_self (p : Polynomial (ZMod 2)) : p + p = 0 := by
  exact CharTwo.add_self_eq_zero p

theorem toPoly_coeff (v i : Nat) :
    (toPoly v).coeff i = if i < 8 ∧ v.testBit i = true then 1 else 0 := by
  unfold toPoly
  rw [Polynomial.finset_sum_coeff]
  simp only [apply_ite (fun p : Polynomial (ZMod 2) => p.coeff i), Polynomial.coeff_X_pow,
    Polynomial.coeff_zero]
  by_cases hi : i < 8
  · rw [Finset.sum_eq_single i]
    · simp [hi]
    · intro j _ hj
      simp [Ne.symm hj]
    · intro h; exact absurd (Finset.mem_range.mpr hi) h
  · rw [Finset.sum_eq_zero]
    · simp [hi]
    · intro j hj
      have : j < 8 := Finset.mem_range.mp hj
      have : i ≠ j := by omega
      simp [this]

theorem toPoly_xor (a b : Nat) : toPoly (a ^^^ b) = toPoly a + toPoly b := by
  unfold toPoly
  rw [← Finset.sum_add_distrib]
  refine Finset.sum_congr rfl (fun i _ => ?_)
  rw [Nat.testBit_xor]
  cases a.testBit i <;> cases b.testBit i <;> simp [poly_add_self]

theorem toPoly_mod (v : Nat) : toPoly (v % 256) = toPoly v := by
  unfold toPoly
  refine Finset.sum_congr rfl (fun i hi => ?_)
  have h8 : i < 8 := Finset.mem_range.mp hi
  have : (256 : Nat) = 2 ^ 8 := by norm_num
  rw [this, Nat.testBit_mod_two_pow]
  simp [h8]

theorem toPoly_shiftLeft_one (c : Nat) :
    toPoly (c <<< 1) = Polynomial.X * toPoly c + (if c.testBit 7 then Polynomial.X ^ 8 else 0) := by
  have h1 : toPoly (c <<< 1)
      = ∑ i ∈ Finset.range 7, if c.testBit i then (Polynomial.X : Polynomial (ZMod 2)) ^ (i + 1) else 0 := by
    unfold toPoly
    rw [Finset.sum_range_succ']
    simp [Nat.testBit_shiftLeft]
  have h2 : Polynomial.X * toPoly c
      = (∑ i ∈ Finset.range 7, if c.testBit i then (Polynomial.X : Polynomial (ZMod 2)) ^ (i + 1) else 0)
        + (if c.testBit 7 then Polynomial.X ^ 8 else 0) := by
    unfold toPoly
    rw [Finset.mul_sum, Finset.sum_range_succ]
    congr 1
    · refine Finset.sum_congr rfl (fun i _ => ?_)
      split <;> simp [pow_succ']
    · split <;> simp [pow_succ']
  rw [h1, h2, add_assoc, poly_add_self, add_zero]

theorem and_0x80 (c : Nat) : c &&& 0x80 ≠ 0 ↔ c.testBit 7 = true := by
  have h : (0x80 : Nat) = 2 ^ 7 := by norm_num
  rw [h, Nat.and_two_pow]
  cases c.testBit 7 <;> simp

theorem toPoly_degree_lt (v : Nat) : (toPoly v).degree < ((8 : Nat) : WithBot Nat) := by
  rw [Polynomial.degree_lt_iff_coeff_zero]
  intro m hm
  rw [toPoly_coeff]
  have : ¬ m < 8 := by omega
  simp [this]

theorem genPoly_monic (p : Nat) : (genPoly p).Monic := by
  unfold genPoly
  apply Polynomial.monic_X_pow_add
  exact toPoly_degree_lt p

theorem genPoly_degree (p : Nat) : (genPoly p).degree = ((8 : Nat) : WithBot Nat) := by
  unfold genPoly
  rw [Polynomial.degree_add_eq_left_of_degree_lt, Polynomial.degree_X_pow]
  rw [Polynomial.degree_X_pow]
  exact toPoly_degree_lt p

theorem toPoly_modByMonic (v p : Nat) : toPoly v %ₘ genPoly p = toPoly v := by
  rw [Polynomial.modByMonic_eq_self_iff (genPoly_monic p), genPoly_degree]
  exact toPoly_degree_lt v

theorem toPoly_injOn : Set.InjOn toPoly (Set.Iio 256) := by
  intro a ha b hb hab
  apply Nat.eq_of_testBit_eq
  intro i
  by_cases hi : i < 8
  · have h := congrArg (fun q => Polynomial.coeff q i) hab
    simp only [toPoly_coeff, hi, true_and] at h
    cases ha' : a.testBit i <;> cases hb' : b.testBit i <;> simp_all
  · have h2 : (2 : Nat) ^ 8 ≤ 2 ^ i := Nat.pow_le_pow_right (by norm_num) (by omega)
    have ha' : a < 2 ^ i := lt_of_lt_of_le (by simpa using ha) h2
    have hb' : b < 2 ^ i := lt_of_lt_of_le (by simpa using hb) h2
    rw [Nat.testBit_lt_two_pow ha', Nat.testBit_lt_two_pow hb']

/-- One pass of the loop body multiplies the accumulator polynomial by `x` and
adds the generator when bit 7 was set. -/
theorem body_toPoly (e : CRC8_t) :
    toPoly (CRC8PushByte.body e).crc
      = Polynomial.X * toPoly e.crc
        + (if e.crc.testBit 7 then genPoly e.polynomial else 0) := by
  unfold CRC8PushByte.body
  by_cases h : e.crc.testBit 7 = true
  · rw [if_pos ((and_0x80 e.crc).mpr h)]
    simp only [toPoly_mod, toPoly_xor, toPoly_shiftLeft_one, h, if_true, genPoly]
    rw [add_assoc]
  · rw [if_neg (fun hc => h ((and_0x80 e.crc).mp hc))]
    simp only [toPoly_mod, toPoly_shiftLeft_one, h]
    simp

theorem loop_dvd (n : Nat) (e : CRC8_t) :
    genPoly e.polynomial ∣
      toPoly (CRC8PushByte.loop n e).crc - Polynomial.X ^ n * toPoly e.crc := by
  induction n generalizing e with
  | zero => simp [CRC8PushByte.loop]
  | succ n ih =>
    rw [CRC8PushByte.loop]
    have h1 := ih (CRC8PushByte.body e)
    rw [body_polynomial, body_toPoly] at h1
    have h2 : genPoly e.polynomial ∣
        Polynomial.X ^ n * (if e.crc.testBit 7 then genPoly e.polynomial else 0) := by
      split
      · exact Dvd.intro_left _ rfl
      · simp
    have h3 := dvd_add h1 h2
    have h4 : toPoly (CRC8PushByte.loop n (CRC8PushByte.body e)).crc
          - Polynomial.X ^ n * (Polynomial.X * toPoly e.crc
              + if e.crc.testBit 7 = true then genPoly e.polynomial else 0)
          + Polynomial.X ^ n * (if e.crc.testBit 7 = true then genPoly e.polynomial else 0)
        = toPoly (CRC8PushByte.loop n (CRC8PushByte.body e)).crc
          - Polynomial.X ^ (n + 1) * toPoly e.crc := by
      ring
    rw [h4] at h3
    exact h3

theorem push_dvd (e : CRC8_t) (b : Nat) :
    genPoly e.polynomial ∣
      toPoly (CRC8PushByte e b).2.crc - Polynomial.X ^ 8 * (toPoly e.crc + toPoly b) := by
  have h := loop_dvd 8 { e with crc := (e.crc ^^^ b) % 256 }
  simp only [toPoly_mod, toPoly_xor] at h
  exact h

theorem pushAll_dvd (S : List Nat) (e : CRC8_t) :
    genPoly e.polynomial ∣
      toPoly (pushAll e S).crc
        - (toPoly e.crc * Polynomial.X ^ (8 * S.length) + msgPoly S * Polynomial.X ^ 8) := by
  induction S generalizing e with
  | nil => simp [pushAll, msgPoly]
  | cons b bs ih =>
    rw [pushAll]
    have h1 := ih (CRC8PushByte e b).2
    rw [push_polynomial] at h1
    have h2 := Dvd.dvd.mul_right (push_dvd e b) (Polynomial.X ^ (8 * bs.length))
    have h3 := dvd_add h1 h2
    have h4 : toPoly (pushAll (CRC8PushByte e b).2 bs).crc
          - (toPoly (CRC8PushByte e b).2.crc * Polynomial.X ^ (8 * bs.length)
              + msgPoly bs * Polynomial.X ^ 8)
          + (toPoly (CRC8PushByte e b).2.crc - Polynomial.X ^ 8 * (toPoly e.crc + toPoly b))
              * Polynomial.X ^ (8 * bs.length)
        = toPoly (pushAll (CRC8PushByte e b).2 bs).crc
          - (toPoly e.crc * Polynomial.X ^ (8 * (b :: bs).length)
              + msgPoly (b :: bs) * Polynomial.X ^ 8) := by
      simp only [msgPoly, List.length_cons]
      ring
    rw [h4] at h3
    exact h3

/-- The accumulator after pushing `S`, as a remainder modulo the generator. -/
theorem pushAll_toPoly (S : List Nat) (e : CRC8_t) :
    toPoly (pushAll e S).crc
      = (toPoly e.crc * Polynomial.X ^ (8 * S.length) + msgPoly S * Polynomial.X ^ 8)
          %ₘ genPoly e.polynomial := by
  rw [← Polynomial.modByMonic_eq_of_dvd_sub (genPoly_monic e.polynomial) (pushAll_dvd S e),
    toPoly_modByMonic]

theorem pushAll_crc_lt (e : CRC8_t) (S : List Nat) (hS : S ≠ []) : (pushAll e S).crc < 256 := by
  induction S generalizing e with
  | nil => exact absurd rfl hS
  | cons b bs ih =>
    rw [pushAll]
    cases bs with
    | nil => exact push_crc_lt e b
    | cons b' bs' => exact ih _ (List.cons_ne_nil _ _)

/-- C14. The accumulator update is polynomial division over GF(2): with an
8-bit value read as the polynomial `toPoly` and `G(x) = x^8 + polynomial(x)`,
for every start accumulator `a` and every non-empty byte sequence `B1..Bn`
with message polynomial `M(x)`, the accumulator after processing `B1..Bn` (by
pushes, or by `CRC8Batch`, which leaves the same struct) is an 8-bit value and
reads as `((a(x) * x^(8(n-1)) + M(x)) * x^8) mod G(x)`; after one
`CRC8PushByte` of `b` it reads as `((a XOR b)(x) * x^8) mod G(x)`.  Reading
8-bit values as polynomials is injective, so these equations determine the
accumulator. -/
theorem C14_polynomial_division (e : CRC8_t) (b : Nat) (S : List Nat) (hS : S ≠ []) :
    toPoly (pushAll e S).crc
        = ((toPoly e.crc * Polynomial.X ^ (8 * (S.length - 1)) + msgPoly S) * Polynomial.X ^ 8)
            %ₘ genPoly e.polynomial
    ∧ (pushAll e S).crc < 256
    ∧ (∃ r, CRC8Batch e S S.length = some (r, pushAll e S))
    ∧ toPoly (CRC8PushByte e b).2.crc
        = (toPoly (e.crc ^^^ b) * Polynomial.X ^ 8) %ₘ genPoly e.polynomial
    ∧ (CRC8PushByte e b).2.crc < 256
    ∧ Set.InjOn toPoly (Set.Iio 256) := by
  refine ⟨?_, pushAll_crc_lt e S hS, ⟨_, batch_full e S⟩, ?_, push_crc_lt e b, toPoly_injOn⟩
  · rw [pushAll_toPoly]
    have hn : 8 * S.length = 8 * (S.length - 1) + 8 := by
      have : 0 < S.length := List.length_pos.mpr hS
      omega
    rw [hn, pow_add, add_mul, mul_assoc]
  · have h := pushAll_toPoly [b] e
    simp only [pushAll, msgPoly, List.length_cons, List.length_nil] at h
    rw [h, toPoly_xor]
    congr 1
    ring

theorem C14_polynomial_division_witness :
    [0x12, 0x63] ≠ []
    ∧ toPoly (pushAll ⟨0xFF, 0xB7, 0xFF, 0x00⟩ [0x12, 0x63]).crc
        = ((toPoly (⟨0xFF, 0xB7, 0xFF, 0x00⟩ : CRC8_t).crc
              * Polynomial.X ^ (8 * ([0x12, 0x63].length - 1)) + msgPoly [0x12, 0x63])
            * Polynomial.X ^ 8)
            %ₘ genPoly (⟨0xFF, 0xB7, 0xFF, 0x00⟩ : CRC8_t).polynomial
    ∧ (pushAll ⟨0xFF, 0xB7, 0xFF, 0x00⟩ [0x12, 0x63]).crc < 256
    ∧ (∃ r, CRC8Batch ⟨0xFF, 0xB7, 0xFF, 0x00⟩ [0x12, 0x63] [0x12, 0x63].length
        = some (r, pushAll ⟨0xFF, 0xB7, 0xFF, 0x00⟩ [0x12, 0x63]))
    ∧ toPoly (CRC8PushByte ⟨0xFF, 0xB7, 0xFF, 0x00⟩ 0xaa).2.crc
        = (toPoly ((⟨0xFF, 0xB7, 0xFF, 0x00⟩ : CRC8_t).crc ^^^ 0xaa) * Polynomial.X ^ 8)
            %ₘ genPoly (⟨0xFF, 0xB7, 0xFF, 0x00⟩ : CRC8_t).polynomial
    ∧ (CRC8PushByte ⟨0xFF, 0xB7, 0xFF, 0x00⟩ 0xaa).2.crc < 256
    ∧ Set.InjOn toPoly (Set.Iio 256) :=
  ⟨by decide, C14_polynomial_division ⟨0xFF, 0xB7, 0xFF, 0x00⟩ 0xaa [0x12, 0x63] (by decide)⟩

/-! Linearity over GF(2) -/

theorem msgPoly_zipWith_xor (X Y : List Nat) (h : X.length = Y.length) :
    msgPoly (List.zipWith (fun x y => x ^^^ y) X Y) = msgPoly X + msgPoly Y := by
  induction X generalizing Y with
  | nil =>
    cases Y with
    | nil => simp [msgPoly]
    | cons y ys => simp at h
  | cons x xs ih =>
    cases Y with
    | nil => simp at h
    | cons y ys =>
      have hl : xs.length = ys.length := by simpa using h
      simp only [List.zipWith_cons_cons, msgPoly, List.length_zipWith, toPoly_xor, ih ys hl,
        ← hl, Nat.min_self]
      ring

/-- C19. XOR-linearity: for a fixed polynomial, every two start accumulators
`a1`, `a2` and every two byte sequences `X`, `Y` of equal length, the
accumulator reached from `a1 XOR a2` by processing the bytewise XOR of `X` and
`Y` is the XOR of the accumulator reached from `a1` by processing `X` and the
one reached from `a2` by processing `Y` (initial and final XOR values play no
part). -/
theorem C19_xor_linearity (polynomial a1 a2 i1 f1 i2 f2 i3 f3 : Nat) (X Y : List Nat)
    (hlen : X.length = Y.length) :
    (pushAll ⟨a1 ^^^ a2, polynomial, i3, f3⟩ (List.zipWith (fun x y => x ^^^ y) X Y)).crc
      = (pushAll ⟨a1, polynomial, i1, f1⟩ X).crc ^^^ (pushAll ⟨a2, polynomial, i2, f2⟩ Y).crc := by
  by_cases hX : X = []
  · subst hX
    have hY : Y = [] := List.length_eq_zero.mp hlen.symm
    subst hY
    rfl
  · have hY : Y ≠ [] := by
      intro hY
      rw [hY] at hlen
      exact hX (List.length_eq_zero.mp hlen)
    have hZ : List.zipWith (fun x y => x ^^^ y) X Y ≠ [] := by
      intro hZ
      have := congrArg List.length hZ
      rw [List.length_zipWith, ← hlen, Nat.min_self] at this
      exact hX (List.length_eq_zero.mp this)
    apply toPoly_injOn
    · exact pushAll_crc_lt _ _ hZ
    · exact xor_lt_256 (pushAll_crc_lt _ _ hX) (pushAll_crc_lt _ _ hY)
    · rw [toPoly_xor, pushAll_toPoly, pushAll_toPoly, pushAll_toPoly,
        ← Polynomial.add_modByMonic, msgPoly_zipWith_xor X Y hlen, List.length_zipWith,
        ← hlen, Nat.min_self]
      simp only [toPoly_xor]
      congr 1
      ring

theorem C19_xor_linearity_witness :
    [0x12, 0x63].length = [0xaa, 0xbb].length
    ∧ (pushAll ⟨0xFF ^^^ 0x3c, 0xB7, 0, 0⟩
          (List.zipWith (fun x y => x ^^^ y) [0x12, 0x63] [0xaa, 0xbb])).crc
      = (pushAll ⟨0xFF, 0xB7, 0xFF, 0x00⟩ [0x12, 0x63]).crc
          ^^^ (pushAll ⟨0x3c, 0xB7, 0x00, 0x55⟩ [0xaa, 0xbb]).crc :=
  ⟨by decide,
    C19_xor_linearity 0xB7 0xFF 0x3c 0xFF 0x00 0x00 0x55 0 0 [0x12, 0x63] [0xaa, 0xbb]
      (by decide)⟩

/-! Odd polynomial: the update is injective -/

theorem genPoly_coeff_zero (p : Nat) (hodd : p % 2 = 1) : (genPoly p).coeff 0 = 1 := by
  unfold genPoly
  rw [Polynomial.coeff_add, toPoly_coeff, Polynomial.coeff_X_pow]
  simp [Nat.testBit_zero, hodd]

theorem body_injective {e1 e2 : CRC8_t} (hp : e1.polynomial = e2.polynomial)
    (hodd : e1.polynomial % 2 = 1) (h1 : e1.crc < 256) (h2 : e2.crc < 256)
    (h : (CRC8PushByte.body e1).crc = (CRC8PushByte.body e2).crc) : e1.crc = e2.crc := by
  have hP := congrArg toPoly h
  rw [body_toPoly, body_toPoly, ← hp] at hP
  have h0 := congrArg (fun q => Polynomial.coeff q 0) hP
  simp only [Polynomial.coeff_add, Polynomial.coeff_X_mul_zero, zero_add] at h0
  have hbit : e1.crc.testBit 7 = e2.crc.testBit 7 := by
    cases hb1 : e1.crc.testBit 7 <;> cases hb2 : e2.crc.testBit 7 <;>
      simp [hb1, hb2, genPoly_coeff_zero _ hodd] at h0 ⊢
  rw [hbit] at hP
  have hX := add_right_cancel hP
  exact toPoly_injOn h1 h2 (mul_left_cancel₀ Polynomial.X_ne_zero hX)

theorem loop_injective (n : Nat) {e1 e2 : CRC8_t} (hp : e1.polynomial = e2.polynomial)
    (hodd : e1.polynomial % 2 = 1) (h1 : e1.crc < 256) (h2 : e2.crc < 256)
    (h : (CRC8PushByte.loop n e1).crc = (CRC8PushByte.loop n e2).crc) : e1.crc = e2.crc := by
  induction n generalizing e1 e2 with
  | zero => exact h
  | succ n ih =>
    rw [CRC8PushByte.loop, CRC8PushByte.loop] at h
    have hb := @ih (CRC8PushByte.body e1) (CRC8PushByte.body e2)
      (by rw [body_polynomial, body_polynomial, hp]) (by rw [body_polynomial]; exact hodd)
      (body_crc_lt e1) (body_crc_lt e2) h
    exact body_injective hp hodd h1 h2 hb

/-- With an odd polynomial, equal accumulators after a push come from equal
values of accumulator XOR byte. -/
theorem push_injective {e1 e2 : CRC8_t} (b1 b2 : Nat) (hp : e1.polynomial = e2.polynomial)
    (hodd : e1.polynomial % 2 = 1)
    (h : (CRC8PushByte e1 b1).2.crc = (CRC8PushByte e2 b2).2.crc) :
    (e1.crc ^^^ b1) % 256 = (e2.crc ^^^ b2) % 256 :=
  @loop_injective 8 { e1 with crc := (e1.crc ^^^ b1) % 256 }
    { e2 with crc := (e2.crc ^^^ b2) % 256 } hp hodd
    (Nat.mod_lt _ (by decide)) (Nat.mod_lt _ (by decide)) h

theorem push_ne_of_crc_ne {e1 e2 : CRC8_t} (b : Nat) (hp : e1.polynomial = e2.polynomial)
    (hodd : e1.polynomial % 2 = 1) (h1 : e1.crc < 256) (h2 : e2.crc < 256) (hb : b < 256)
    (h : e1.crc ≠ e2.crc) : (CRC8PushByte e1 b).2.crc ≠ (CRC8PushByte e2 b).2.crc := by
  intro heq
  have hx := push_injective b b hp hodd heq
  rw [xor_mod_256 h1 hb, xor_mod_256 h2 hb] at hx
  exact h (Nat.xor_left_inj.mp hx)

theorem push_ne_of_byte_ne (e : CRC8_t) (b1 b2 : Nat) (hodd : e.polynomial % 2 = 1)
    (hc : e.crc < 256) (hb1 : b1 < 256) (hb2 : b2 < 256) (h : b1 ≠ b2) :
    (CRC8PushByte e b1).2.crc ≠ (CRC8PushByte e b2).2.crc := by
  intro heq
  have hx := push_injective b1 b2 rfl hodd heq
  rw [xor_mod_256 hc hb1, xor_mod_256 hc hb2] at hx
  exact h (Nat.xor_right_inj.mp hx)

theorem pushAll_ne_of_crc_ne (Q : List Nat) {e1 e2 : CRC8_t}
    (hp : e1.polynomial = e2.polynomial) (hodd : e1.polynomial % 2 = 1)
    (h1 : e1.crc < 256) (h2 : e2.crc < 256) (hQ : ∀ b ∈ Q, b < 256)
    (h : e1.crc ≠ e2.crc) : (pushAll e1 Q).crc ≠ (pushAll e2 Q).crc := by
  induction Q generalizing e1 e2 with
  | nil => exact h
  | cons b bs ih =>
    rw [pushAll, pushAll]
    exact ih (by rw [push_polynomial, push_polynomial, hp])
      (by rw [push_polynomial]; exact hodd) (push_crc_lt e1 b) (push_crc_lt e2 b)
      (fun c hc => hQ c (List.mem_cons_of_mem _ hc))
      (push_ne_of_crc_ne b hp hodd h1 h2 (hQ b (List.mem_cons_self _ _)) h)

/-- Two equally long byte sequences that differ at position `i` only leave
different accumulators. -/
theorem pushAll_ne_of_single_diff (X Y : List Nat) (e : CRC8_t) (i : Nat)
    (hodd : e.polynomial % 2 = 1) (hc : e.crc < 256)
    (hX : ∀ b ∈ X, b < 256) (hY : ∀ b ∈ Y, b < 256)
    (hlen : X.length = Y.length) (hne : X[i]? ≠ Y[i]?)
    (heq : ∀ j < X.length, j ≠ i → X[j]? = Y[j]?) :
    (pushAll e X).crc ≠ (pushAll e Y).crc := by
  induction X generalizing Y e i with
  | nil =>
    cases Y with
    | nil => exact absurd rfl hne
    | cons y ys => simp at hlen
  | cons x xs ih =>
    cases Y with
    | nil => simp at hlen
    | cons y ys =>
      have hl : xs.length = ys.length := by simpa using hlen
      have hx : x < 256 := hX x (List.mem_cons_self _ _)
      have hy : y < 256 := hY y (List.mem_cons_self _ _)
      have hxs : ∀ b ∈ xs, b < 256 := fun b hb => hX b (List.mem_cons_of_mem _ hb)
      have hys : ∀ b ∈ ys, b < 256 := fun b hb => hY b (List.mem_cons_of_mem _ hb)
      rw [pushAll, pushAll]
      cases i with
      | zero =>
        have hxy : x ≠ y := by
          intro hxy
          exact hne (by simp [hxy])
        have hrest : xs = ys := by
          apply List.ext_getElem?
          intro n
          by_cases hn : n < xs.length
          · have := heq (n + 1) (by simp; omega) (by omega)
            simpa using this
          · rw [List.getElem?_eq_none (by omega), List.getElem?_eq_none (by omega)]
        subst hrest
        exact pushAll_ne_of_crc_ne xs (by rw [push_polynomial, push_polynomial])
          (by rw [push_polynomial]; exact hodd) (push_crc_lt e x) (push_crc_lt e y) hxs
          (push_ne_of_byte_ne e x y hodd hc hx hy hxy)
      | succ k =>
        have hxy : x = y := by
          have := heq 0 (by simp) (by omega)
          simpa using this
        subst hxy
        refine ih ys (CRC8PushByte e x).2 k (by rw [push_polynomial]; exact hodd)
          (push_crc_lt e x) hxs hys hl (by simpa using hne) ?_
        intro j hj hjk
        have := heq (j + 1) (by simp; omega) (by omega)
        simpa using this

/-- C18. Single-byte error detection: for every engine whose polynomial has
its lowest bit set, every start accumulator, and every two byte sequences of
equal length that differ in exactly one byte position `i`, `CRC8Batch` returns
on both and the two checksums differ; and for a fixed byte the map from the
accumulator before `CRC8PushByte` to the accumulator after it is a bijection
on 0..255. -/
theorem C18_single_byte_error_detected (e : CRC8_t) (X Y : List Nat) (i b : Nat)
    (hw : e.WF) (hodd : e.polynomial % 2 = 1)
    (hX : ∀ x ∈ X, x < 256) (hY : ∀ y ∈ Y, y < 256) (hb : b < 256)
    (hlen : X.length = Y.length) (hne : X[i]? ≠ Y[i]?)
    (heq : ∀ j < X.length, j ≠ i → X[j]? = Y[j]?) :
    (∃ rx sx ry sy, CRC8Batch e X X.length = some (rx, sx)
      ∧ CRC8Batch e Y Y.length = some (ry, sy) ∧ rx ≠ ry)
    ∧ Set.BijOn
        (fun a => (CRC8PushByte ⟨a, e.polynomial, e.crcInitialVal, e.crcFinalExorVal⟩ b).2.crc)
        (Set.Iio 256) (Set.Iio 256) := by
  constructor
  · refine ⟨_, _, _, _, batch_full e X, batch_full e Y, ?_⟩
    have hd := pushAll_ne_of_single_diff X Y e i hodd hw.1 hX hY hlen hne heq
    have wX := pushAll_WF e X hw
    have wY := pushAll_WF e Y hw
    show (CRC8Get (pushAll e X)).1 ≠ (CRC8Get (pushAll e Y)).1
    rw [get_fst _ wX, get_fst _ wY, pushAll_final, pushAll_final]
    exact fun h => hd (Nat.xor_left_inj.mp h)
  · have hm : Set.MapsTo
        (fun a => (CRC8PushByte ⟨a, e.polynomial, e.crcInitialVal, e.crcFinalExorVal⟩ b).2.crc)
        (Set.Iio 256) (Set.Iio 256) := fun a _ => push_crc_lt _ b
    refine ((Set.finite_Iio 256).injOn_iff_bijOn_of_mapsTo hm).mp ?_
    intro a1 h1 a2 h2 h
    by_contra hne12
    exact @push_ne_of_crc_ne ⟨a1, e.polynomial, e.crcInitialVal, e.crcFinalExorVal⟩
      ⟨a2, e.polynomial, e.crcInitialVal, e.crcFinalExorVal⟩ b rfl hodd h1 h2 hb
      hne12 h

theorem C18_single_byte_error_detected_witness :
    (⟨0xFF, 0xB7, 0xFF, 0x00⟩ : CRC8_t).WF
    ∧ (⟨0xFF, 0xB7, 0xFF, 0x00⟩ : CRC8_t).polynomial % 2 = 1
    ∧ (∀ x ∈ [0x12, 0x63, 0xaa], x < 256)
    ∧ (∀ y ∈ [0x12, 0x64, 0xaa], y < 256)
    ∧ 0x4d < 256
    ∧ [0x12, 0x63, 0xaa].length = [0x12, 0x64, 0xaa].length
    ∧ [0x12, 0x63, 0xaa][1]? ≠ [0x12, 0x64, 0xaa][1]?
    ∧ (∀ j < [0x12, 0x63, 0xaa].length, j ≠ 1 → [0x12, 0x63, 0xaa][j]? = [0x12, 0x64, 0xaa][j]?)
    ∧ (∃ rx sx ry sy,
        CRC8Batch ⟨0xFF, 0xB7, 0xFF, 0x00⟩ [0x12, 0x63, 0xaa] [0x12, 0x63, 0xaa].length
          = some (rx, sx)
        ∧ CRC8Batch ⟨0xFF, 0xB7, 0xFF, 0x00⟩ [0x12, 0x64, 0xaa] [0x12, 0x64, 0xaa].length
          = some (ry, sy)
        ∧ rx ≠ ry)
    ∧ Set.BijOn
        (fun a => (CRC8PushByte ⟨a, (⟨0xFF, 0xB7, 0xFF, 0x00⟩ : CRC8_t).polynomial,
          (⟨0xFF, 0xB7, 0xFF, 0x00⟩ : CRC8_t).crcInitialVal,
          (⟨0xFF, 0xB7, 0xFF, 0x00⟩ : CRC8_t).crcFinalExorVal⟩ 0x4d).2.crc)
        (Set.Iio 256) (Set.Iio 256) :=
  ⟨by decide, by decide, by decide, by decide, by decide, by decide, by decide, by decide,
    C18_single_byte_error_detected ⟨0xFF, 0xB7, 0xFF, 0x00⟩ [0x12, 0x63, 0xaa]
      [0x12, 0x64, 0xaa] 1 0x4d (by decide) (by decide) (by decide) (by decide) (by decide)
      (by decide) (by decide) (by decide)⟩

end CRC8
